import Mathlib

/-!
Verification of `trakt-duplicates-removal.py`.

The development shallowly embeds the two cores of the script:
* `DuplicateCleaner._find_duplicates` (grouping of history entries by trakt
  id, optional per-day subgrouping, keeper selection, removal marking);
* the `TraktClient` token lifecycle (`load_token`, `save_token`,
  `authenticate`'s device poll loop, `request`'s refresh-and-retry) and the
  credential guard in `main`.

Network effects are abstracted: an HTTP response becomes a value, the
outcome of `refresh_access_token`/`authenticate` becomes an `Option` of a
token, and the responses observed by a loop become a function from the
attempt index to the response.  Clock reads become explicit numeric
arguments.  The reporting-only `_title` annotation of removed entries is
not modelled (it does not change which entries are marked).
-/

/-- The `ids` sub-dict of a movie/episode dict; the `trakt` key may be
absent (a missing key raises `KeyError` in the source). -/
structure MediaIds where
  trakt : Option Nat
  deriving DecidableEq, Repr

/-- The `movie`/`episode` sub-dict of a history entry; `ids` may be absent. -/
structure MediaRef where
  ids : Option MediaIds
  deriving DecidableEq, Repr

/-- One history entry, as used by `_find_duplicates`: the service-assigned
watch-event `id`, the `watched_at` timestamp string, the optional
`progress` value (`entry.get('progress', 0)` in the source), and the
optional `movie`/`episode` sub-dict. -/
structure Entry where
  id : Nat
  watched_at : String
  progress : Option Int
  media : Option MediaRef
  deriving DecidableEq, Repr

/-- `entry[entry_key]['ids']['trakt']`: `some` when the whole key path is
present, `none` when any step would raise `KeyError`. -/
def extractTid (e : Entry) : Option Nat :=
  e.media.bind (fun m => m.ids.bind (fun i => i.trakt))

/-- `entry.get('progress', 0)`. -/
def progD (e : Entry) : Int :=
  e.progress.getD 0

/-- `entry['watched_at'].split('T')[0]`: the longest prefix of the string
with no `T` character, which is exactly the first component of the split. -/
def dayOf (s : String) : String :=
  String.mk (s.data.takeWhile (fun c => c ≠ 'T'))

/-- Python string comparison: lexicographic on the characters by code
point, a strict prefix comparing smaller. -/
def charsLt : List Char → List Char → Prop
  | [], [] => False
  | [], _ :: _ => True
  | _ :: _, [] => False
  | a :: as, b :: bs => a.toNat < b.toNat ∨ (a = b ∧ charsLt as bs)

instance charsLtDec : (as bs : List Char) → Decidable (charsLt as bs)
  | [], [] => isFalse (fun h => h)
  | [], _ :: _ => isTrue trivial
  | _ :: _, [] => isFalse (fun h => h)
  | a :: as, b :: bs =>
    haveI := charsLtDec as bs
    inferInstanceAs (Decidable (a.toNat < b.toNat ∨ (a = b ∧ charsLt as bs)))

/-- `watched_at` strings are compared as Python compares `str` values. -/
def wLt (s t : String) : Prop :=
  charsLt s.data t.data

instance (s t : String) : Decidable (wLt s t) :=
  charsLtDec s.data t.data

/-- The comparison performed by `group.sort(key=lambda x: (x['watched_at'],
x['id']))`: lexicographic on the pair, with the entry id as tie-break. -/
def keyLe (x y : Entry) : Prop :=
  wLt x.watched_at y.watched_at ∨ (x.watched_at = y.watched_at ∧ x.id ≤ y.id)

instance (x y : Entry) : Decidable (keyLe x y) := by
  unfold keyLe; infer_instance

/-- `group.sort(key=lambda x: (x['watched_at'], x['id']))`.  Python's sort
is stable; `List.insertionSort` with a `≤`-shaped relation is the stable
sort of the list. -/
def sortGroup (g : List Entry) : List Entry :=
  g.insertionSort keyLe

/-- Keeper choice on the already-sorted group: the first entry with
`progress >= 100` (the `for entry in group: if ... break` loop), falling
back to `group[-1]` when the loop finds none. -/
def chooseKeeper (sorted : List Entry) : Option Entry :=
  match sorted.find? (fun e => 100 ≤ progD e) with
  | some k => some k
  | none => sorted.getLast?

/-- The contribution of one (sub)group to the `duplicates` list: nothing
for groups of size ≤ 1; otherwise the sorted group minus every entry whose
`id` equals the keeper's (`if entry['id'] != keeper['id']`). -/
def processGroup (g : List Entry) : List Entry :=
  if 1 < g.length then
    match chooseKeeper (sortGroup g) with
    | some k => (sortGroup g).filter (fun e => e.id ≠ k.id)
    | none => []
  else []

/-- Deduplication keeping first occurrences, with an accumulator of the
values already seen.  `dedupFirst l` lists the distinct values of `l` in
order of first appearance — the iteration order of the keys of a Python
`defaultdict` filled by appending along `l`. -/
def dedupFirstAux {α : Type} [DecidableEq α] (seen : List α) : List α → List α
  | [] => []
  | x :: xs =>
    if x ∈ seen then dedupFirstAux seen xs
    else x :: dedupFirstAux (x :: seen) xs

def dedupFirst {α : Type} [DecidableEq α] (l : List α) : List α :=
  dedupFirstAux [] l

/-- The distinct trakt ids of the history, in order of first successful
extraction: the keys of `grouped`. -/
def tidsOf (history : List Entry) : List Nat :=
  dedupFirst (history.filterMap extractTid)

/-- `grouped[tid]`: the entries whose id path extracts to `t`, in history
order (a `defaultdict(list)` receives appends in iteration order). -/
def groupOf (history : List Entry) (t : Nat) : List Entry :=
  history.filter (fun e => extractTid e = some t)

/-- The `subgroups` list built for one identifier group: with
`KEEP_PER_DAY` the values of `day_map` (one filter of the group per
distinct calendar day, days in order of first appearance), otherwise the
single group itself. -/
def subgroupsOf (keepPerDay : Bool) (entries : List Entry) : List (List Entry) :=
  if keepPerDay then
    (dedupFirst (entries.map (fun e => dayOf e.watched_at))).map
      (fun d => entries.filter (fun e => dayOf e.watched_at = d))
  else [entries]

/-- `_find_duplicates(history, media_type)`: the `duplicates` list, i.e.
the concatenation over groups (and subgroups) of each group's removal
contribution. -/
def findDuplicates (keepPerDay : Bool) (history : List Entry) : List Entry :=
  (tidsOf history).flatMap (fun t =>
    (subgroupsOf keepPerDay (groupOf history t)).flatMap processGroup)

/-- The (sub)group a given entry lands in: the entries sharing its
extracted trakt id, further filtered to its calendar day when
`KEEP_PER_DAY` is set; empty when the id path is absent. -/
def subgroupFor (keepPerDay : Bool) (history : List Entry) (e : Entry) : List Entry :=
  match extractTid e with
  | none => []
  | some t =>
    if keepPerDay then
      (groupOf history t).filter (fun x => dayOf x.watched_at = dayOf e.watched_at)
    else groupOf history t

/-! ### Token lifecycle (`TraktClient`)

Times (`time.time()`) are modelled as integers passed explicitly; the
token file as a `FileState`; the network results of
`refresh_access_token` and `authenticate` as `Option StoredToken`
parameters (each is a separate endpoint interaction whose internals the
claims about `load_token`/`request` do not depend on). -/

/-- The persisted token record.  `expires_at` is `Option` because the
source tests `'expires_at' in token_data` before reading it. -/
structure StoredToken where
  access_token : String
  refresh_tok : String
  expires_in : Int
  expires_at : Option Int
  deriving DecidableEq, Repr

/-- What reading `TOKEN_FILE` can yield: no file, a file `json.load`
raises on (`JSONDecodeError`/`IOError`), or a parsed record. -/
inductive FileState where
  | absent
  | corrupt
  | parsed (t : StoredToken)
  deriving DecidableEq, Repr

/-- `TraktClient.load_token` at clock `now`, with `refreshRes` the value
`refresh_access_token(token_data)` would return.  The second component
records whether the refresh path was taken. -/
def load_token (now : Int) (file : FileState) (refreshRes : Option StoredToken) :
    Option StoredToken × Bool :=
  match file with
  | .absent => (none, false)
  | .corrupt => (none, false)
  | .parsed t =>
    match t.expires_at with
    | some ea => if ea < now then (refreshRes, true) else (some t, false)
    | none => (some t, false)

/-- `TraktClient.save_token` at clock `now`: sets
`expires_at = time.time() + expires_in` and overwrites the file with the
record (the in-memory `self.token_data` gets the same value). -/
def save_token (now : Int) (t : StoredToken) : StoredToken :=
  { t with expires_at := some (now + t.expires_in) }

/-- An HTTP response as far as the modelled control flow reads it. -/
structure Response where
  status_code : Nat
  deriving DecidableEq, Repr

/-- Outcome of `TraktClient.request`: either a Python exception (the
explicit `raise Exception("Authentication required")`, or the `TypeError`
of subscripting `None` when the refresh chain returns `None`), or the
returned response together with how many times the url was actually
requested. -/
inductive RequestOutcome where
  | error (msg : String)
  | ok (r : Response) (sends : Nat)
  deriving DecidableEq, Repr

/-- `TraktClient.request`.  `net n` is the response to the `n`-th send of
this url (0-based); `tok0` is `self.token_data` on entry; `authRes` and
`refreshRes` are the results `authenticate()` and
`refresh_access_token(...)` would produce if called. -/
def request (net : Nat → Response) (tok0 authRes refreshRes : Option StoredToken) :
    RequestOutcome :=
  match tok0.orElse (fun _ => authRes) with
  | none => .error "Authentication required"
  | some _t =>
    let r0 := net 0
    if r0.status_code = 401 then
      match refreshRes with
      | none => .error "TypeError: NoneType is not subscriptable"
      | some _t2 => .ok (net 1) 2
    else .ok r0 1

/-- A response of the device-token polling endpoint: its status code and
(read only on status 200) the token payload. -/
structure TokenResponse where
  status_code : Nat
  payload : StoredToken
  deriving DecidableEq, Repr

/-- Outcome of the polling loop in `TraktClient.authenticate`, with the
number of token requests issued. -/
inductive PollResult where
  | success (t : StoredToken) (polls : Nat)
  | authFailed (status : Nat) (polls : Nat)
  | timedOut (polls : Nat)
  deriving DecidableEq, Repr

/-- The `while time.time() - start_time < timeout` loop of
`TraktClient.authenticate`.  `elapsed` is `time.time() - start_time` at
the loop test; each `time.sleep(interval)` advances it by `interval`
(other time costs are not modelled); `responses i` is the `i`-th
token-endpoint response.  Status 200 saves and returns the token; 429
sleeps one extra interval; any other non-400 status breaks out of the
loop (Python then falls through to the timed-out return). -/
def pollLoop (responses : Nat → TokenResponse) (interval : Nat)
    (hpos : 0 < interval) (timeout : Nat) (elapsed : Nat) (i : Nat) : PollResult :=
  if elapsed < timeout then
    let r := responses i
    if r.status_code = 200 then .success r.payload (i + 1)
    else if r.status_code = 429 then
      pollLoop responses interval hpos timeout (elapsed + interval + interval) (i + 1)
    else if r.status_code ≠ 400 then .authFailed r.status_code (i + 1)
    else pollLoop responses interval hpos timeout (elapsed + interval) (i + 1)
  else .timedOut i
termination_by timeout - elapsed
decreasing_by
  · omega
  · omega

/-! ### Credential guard (`main` and the module-level constants) -/

/-- `os.getenv(name) or placeholder`: `None` and the empty string are
falsy, anything else is kept. -/
def resolveCred (env : Option String) (placeholder : String) : String :=
  match env with
  | none => placeholder
  | some v => if v = "" then placeholder else v

/-- What `main` does before constructing any client. -/
inductive MainOutcome where
  | abortedConfig
  | proceeds
  deriving DecidableEq, Repr

/-- The guard at the top of `main`:
`if not CLIENT_ID or CLIENT_ID == 'your_client_id': sys.exit(1)`.
Only the client id is inspected; the secret and username are taken as
arguments to record that they are available yet unused. -/
def mainGuard (clientId _clientSecret _username : String) : MainOutcome :=
  if clientId = "" ∨ clientId = "your_client_id" then .abortedConfig else .proceeds

/-! ### Concrete inputs (the scenario of §8 of the specification) -/

def egMedia : MediaRef := ⟨some ⟨some 42⟩⟩

def egE1 : Entry := ⟨1, "2024-01-01T10:00:00Z", some 50, some egMedia⟩

def egE2 : Entry := ⟨2, "2024-01-02T10:00:00Z", some 100, some egMedia⟩

def egHistory : List Entry := [egE1, egE2]

/-- An entry with no `movie`/`episode` sub-dict: extracting the id raises
`KeyError`. -/
def egBad : Entry := ⟨3, "2024-01-03T10:00:00Z", some 100, none⟩

def egTok : StoredToken := ⟨"acc", "ref", 7776000, none⟩

/-- History of the §8 scenario plus an entry with a missing id path. -/
def egHistoryB : List Entry := [egE1, egE2, egBad]

/-- A device-token poll script: pending on the first poll, success on the
second. -/
def egResponses : Nat → TokenResponse :=
  fun j => if j = 0 then ⟨400, egTok⟩ else ⟨200, egTok⟩

/-! ### Helper lemmas -/

theorem char_toNat_inj {a b : Char} (h : a.toNat = b.toNat) : a = b :=
  Char.eq_of_val_eq (UInt32.toNat.inj h)

theorem string_data_inj {s t : String} (h : s.data = t.data) : s = t := by
  cases s
  cases t
  exact congrArg String.mk h

theorem charsLt_trans : ∀ {as bs cs : List Char},
    charsLt as bs → charsLt bs cs → charsLt as cs := by
  intro as
  induction as with
  | nil =>
    intro bs cs h1 h2
    cases bs with
    | nil => exact absurd h1 (fun h => h)
    | cons b bs' =>
      cases cs with
      | nil => exact absurd h2 (fun h => h)
      | cons c cs' => exact trivial
  | cons a as ih =>
    intro bs cs h1 h2
    cases bs with
    | nil => exact absurd h1 (fun h => h)
    | cons b bs' =>
      cases cs with
      | nil => exact absurd h2 (fun h => h)
      | cons c cs' =>
        rcases h1 with h1 | ⟨rfl, h1'⟩
        · rcases h2 with h2 | ⟨rfl, h2'⟩
          · exact Or.inl (Nat.lt_trans h1 h2)
          · exact Or.inl h1
        · rcases h2 with h2 | ⟨rfl, h2'⟩
          · exact Or.inl h2
          · exact Or.inr ⟨rfl, ih h1' h2'⟩

theorem charsLt_trichotomy : ∀ (as bs : List Char),
    charsLt as bs ∨ as = bs ∨ charsLt bs as := by
  intro as
  induction as with
  | nil =>
    intro bs
    cases bs with
    | nil => exact Or.inr (Or.inl rfl)
    | cons b bs' => exact Or.inl trivial
  | cons a as ih =>
    intro bs
    cases bs with
    | nil => exact Or.inr (Or.inr trivial)
    | cons b bs' =>
      rcases Nat.lt_trichotomy a.toNat b.toNat with h | h | h
      · exact Or.inl (Or.inl h)
      · have hab : a = b := char_toNat_inj h
        subst hab
        rcases ih bs' with h' | h' | h'
        · exact Or.inl (Or.inr ⟨rfl, h'⟩)
        · exact Or.inr (Or.inl (by rw [h']))
        · exact Or.inr (Or.inr (Or.inr ⟨rfl, h'⟩))
      · exact Or.inr (Or.inr (Or.inl h))

theorem wLt_trans {s t u : String} : wLt s t → wLt t u → wLt s u :=
  charsLt_trans

theorem wLt_trichotomy (s t : String) : wLt s t ∨ s = t ∨ wLt t s := by
  rcases charsLt_trichotomy s.data t.data with h | h | h
  · exact Or.inl h
  · exact Or.inr (Or.inl (string_data_inj h))
  · exact Or.inr (Or.inr h)

instance : IsTotal Entry keyLe where
  total x y := by
    rcases wLt_trichotomy x.watched_at y.watched_at with h | h | h
    · exact Or.inl (Or.inl h)
    · rcases Nat.le_total x.id y.id with h' | h'
      · exact Or.inl (Or.inr ⟨h, h'⟩)
      · exact Or.inr (Or.inr ⟨h.symm, h'⟩)
    · exact Or.inr (Or.inl h)

instance : IsTrans Entry keyLe where
  trans x y z hxy hyz := by
    rcases hxy with h1 | ⟨h1, h1'⟩
    · rcases hyz with h2 | ⟨h2, _⟩
      · exact Or.inl (wLt_trans h1 h2)
      · exact Or.inl (h2 ▸ h1)
    · rcases hyz with h2 | ⟨h2, h2'⟩
      · exact Or.inl (h1 ▸ h2)
      · exact Or.inr ⟨h1.trans h2, h1'.trans h2'⟩

theorem keyLe_refl (x : Entry) : keyLe x x :=
  Or.inr ⟨rfl, le_refl _⟩

theorem mem_dedupFirstAux {α : Type} [DecidableEq α] (seen l : List α) (a : α) :
    a ∈ dedupFirstAux seen l ↔ a ∈ l ∧ a ∉ seen := by
  induction l generalizing seen with
  | nil => simp [dedupFirstAux]
  | cons x xs ih =>
    simp only [dedupFirstAux]
    by_cases hx : x ∈ seen
    · rw [if_pos hx, ih]
      simp only [List.mem_cons]
      constructor
      · rintro ⟨h1, h2⟩
        exact ⟨Or.inr h1, h2⟩
      · rintro ⟨rfl | h1, h2⟩
        · exact absurd hx h2
        · exact ⟨h1, h2⟩
    · rw [if_neg hx]
      simp only [List.mem_cons, ih]
      constructor
      · rintro (rfl | ⟨h1, h2⟩)
        · exact ⟨Or.inl rfl, hx⟩
        · exact ⟨Or.inr h1, fun hs => h2 (Or.inr hs)⟩
      · rintro ⟨rfl | h1, h2⟩
        · exact Or.inl rfl
        · by_cases hax : a = x
          · exact Or.inl hax
          · refine Or.inr ⟨h1, fun hs => ?_⟩
            rcases hs with h | h
            · exact hax h
            · exact h2 h

theorem nodup_dedupFirstAux {α : Type} [DecidableEq α] (seen l : List α) :
    (dedupFirstAux seen l).Nodup := by
  induction l generalizing seen with
  | nil => simp [dedupFirstAux]
  | cons x xs ih =>
    simp only [dedupFirstAux]
    by_cases hx : x ∈ seen
    · rw [if_pos hx]; exact ih seen
    · rw [if_neg hx]
      refine List.nodup_cons.mpr ⟨fun hmem => ?_, ih (x :: seen)⟩
      exact ((mem_dedupFirstAux _ _ _).mp hmem).2 (List.mem_cons_self x seen)

theorem mem_dedupFirst {α : Type} [DecidableEq α] (l : List α) (a : α) :
    a ∈ dedupFirst l ↔ a ∈ l := by
  simp [dedupFirst, mem_dedupFirstAux]

theorem nodup_dedupFirst {α : Type} [DecidableEq α] (l : List α) :
    (dedupFirst l).Nodup :=
  nodup_dedupFirstAux [] l

theorem sortGroup_perm (g : List Entry) : (sortGroup g).Perm g :=
  List.perm_insertionSort keyLe g

theorem sortGroup_sorted (g : List Entry) : (sortGroup g).Sorted keyLe :=
  List.sorted_insertionSort keyLe g

theorem mem_sortGroup (g : List Entry) (e : Entry) : e ∈ sortGroup g ↔ e ∈ g :=
  (sortGroup_perm g).mem_iff

theorem chooseKeeper_mem {s : List Entry} {k : Entry}
    (h : chooseKeeper s = some k) : k ∈ s := by
  unfold chooseKeeper at h
  split at h
  · next k' hf =>
    cases h
    exact List.mem_of_find?_eq_some hf
  · next hf =>
    obtain ⟨hne, rfl⟩ := List.mem_getLast?_eq_getLast h
    exact List.getLast_mem hne

theorem chooseKeeper_of_ne_nil {s : List Entry} (h : s ≠ []) :
    ∃ k, chooseKeeper s = some k := by
  unfold chooseKeeper
  split
  · next k' _ => exact ⟨k', rfl⟩
  · next _ => exact ⟨s.getLast h, List.getLast?_eq_getLast_of_ne_nil h⟩

theorem find?_first_keyLe : ∀ {s : List Entry}, s.Sorted keyLe →
    ∀ {k}, s.find? (fun e => 100 ≤ progD e) = some k →
    ∀ e ∈ s, 100 ≤ progD e → keyLe k e := by
  intro s
  induction s with
  | nil =>
    intro _ k h
    simp at h
  | cons x xs ih =>
    intro hs k h e he hp
    by_cases hx : 100 ≤ progD x
    · have hfx : (x :: xs).find? (fun e => 100 ≤ progD e) = some x :=
        List.find?_cons_of_pos xs (by simpa using hx)
      rw [hfx] at h
      cases h
      rcases List.mem_cons.mp he with rfl | he'
      · exact keyLe_refl _
      · exact (List.sorted_cons.mp hs).1 e he'
    · have hfx : (x :: xs).find? (fun e => 100 ≤ progD e) =
          xs.find? (fun e => 100 ≤ progD e) :=
        List.find?_cons_of_neg xs (by simpa using hx)
      rw [hfx] at h
      rcases List.mem_cons.mp he with rfl | he'
      · exact absurd hp hx
      · exact ih (List.sorted_cons.mp hs).2 h e he' hp

theorem getLast?_max_keyLe : ∀ {s : List Entry}, s.Sorted keyLe →
    ∀ {k}, s.getLast? = some k → ∀ e ∈ s, keyLe e k := by
  intro s
  induction s with
  | nil =>
    intro _ k h
    simp at h
  | cons x xs ih =>
    intro hs k h e he
    cases xs with
    | nil =>
      have hk : x = k := by simpa using h
      have hex : e = x := by simpa using he
      subst hk
      subst hex
      exact keyLe_refl _
    | cons y ys =>
      rw [List.getLast?_cons_cons] at h
      rcases List.mem_cons.mp he with rfl | he'
      · have hk : k ∈ y :: ys := by
          obtain ⟨hne, rfl⟩ := List.mem_getLast?_eq_getLast h
          exact List.getLast_mem hne
        exact (List.sorted_cons.mp hs).1 k hk
      · exact ih (List.sorted_cons.mp hs).2 h e he'

theorem mem_of_mem_processGroup {g : List Entry} {e : Entry}
    (h : e ∈ processGroup g) : e ∈ g := by
  unfold processGroup at h
  split at h
  · split at h
    · exact (mem_sortGroup g e).mp (List.mem_of_mem_filter h)
    · simp at h
  · simp at h

theorem processGroup_eq_filter {g : List Entry} {k : Entry} (hlen : 1 < g.length)
    (hk : chooseKeeper (sortGroup g) = some k) :
    processGroup g = (sortGroup g).filter (fun e => e.id ≠ k.id) := by
  unfold processGroup
  rw [if_pos hlen, hk]

theorem processGroup_short {g : List Entry} (hlen : ¬ 1 < g.length) :
    processGroup g = [] := by
  unfold processGroup
  rw [if_neg hlen]

theorem nodup_processGroup {g : List Entry} (hg : g.Nodup) :
    (processGroup g).Nodup := by
  unfold processGroup
  split
  · split
    · exact List.Nodup.filter _ ((sortGroup_perm g).nodup_iff.mpr hg)
    · simp
  · simp

theorem mem_groupOf {history : List Entry} {t : Nat} {e : Entry} :
    e ∈ groupOf history t ↔ e ∈ history ∧ extractTid e = some t := by
  simp [groupOf, List.mem_filter]

theorem subgroupFor_of_none {kpd : Bool} {history : List Entry} {e : Entry}
    (h : extractTid e = none) : subgroupFor kpd history e = [] := by
  simp [subgroupFor, h]

theorem subgroup_eq_subgroupFor {kpd : Bool} {history : List Entry} {t : Nat}
    {sg : List Entry} (hsg : sg ∈ subgroupsOf kpd (groupOf history t))
    {e : Entry} (he : e ∈ sg) :
    sg = subgroupFor kpd history e ∧ e ∈ history ∧ extractTid e = some t := by
  unfold subgroupsOf at hsg
  cases kpd with
  | false =>
    simp only [if_neg (Bool.false_ne_true), List.mem_singleton] at hsg
    subst hsg
    obtain ⟨hh, hext⟩ := mem_groupOf.mp he
    refine ⟨?_, hh, hext⟩
    simp [subgroupFor, hext]
  | true =>
    rw [if_pos rfl] at hsg
    obtain ⟨d, _, rfl⟩ := List.mem_map.mp hsg
    have he' := List.mem_filter.mp he
    obtain ⟨hh, hext⟩ := mem_groupOf.mp he'.1
    have hd : dayOf e.watched_at = d := by simpa using he'.2
    refine ⟨?_, hh, hext⟩
    simp [subgroupFor, hext, hd]

theorem subgroupFor_mem {kpd : Bool} {history : List Entry} {e : Entry} {t : Nat}
    (he : e ∈ history) (ht : extractTid e = some t) :
    t ∈ tidsOf history ∧
      subgroupFor kpd history e ∈ subgroupsOf kpd (groupOf history t) ∧
      e ∈ subgroupFor kpd history e := by
  have hgrp : e ∈ groupOf history t := mem_groupOf.mpr ⟨he, ht⟩
  refine ⟨?_, ?_, ?_⟩
  · rw [tidsOf, mem_dedupFirst]
    exact List.mem_filterMap.mpr ⟨e, he, ht⟩
  · unfold subgroupsOf
    cases kpd with
    | false =>
      simp only [if_neg (Bool.false_ne_true), List.mem_singleton]
      simp [subgroupFor, ht]
    | true =>
      rw [if_pos rfl]
      refine List.mem_map.mpr ⟨dayOf e.watched_at, ?_, ?_⟩
      · rw [mem_dedupFirst]
        exact List.mem_map.mpr ⟨e, hgrp, rfl⟩
      · simp [subgroupFor, ht]
  · unfold subgroupFor
    rw [ht]
    cases kpd with
    | false => simpa using hgrp
    | true =>
      simp only [if_pos rfl]
      exact List.mem_filter.mpr ⟨hgrp, by simp⟩

theorem nodup_subgroup {kpd : Bool} {history : List Entry} (h : history.Nodup)
    {t : Nat} {sg : List Entry} (hsg : sg ∈ subgroupsOf kpd (groupOf history t)) :
    sg.Nodup := by
  have hg : (groupOf history t).Nodup := List.Nodup.filter _ h
  unfold subgroupsOf at hsg
  cases kpd with
  | false =>
    simp only [if_neg (Bool.false_ne_true), List.mem_singleton] at hsg
    subst hsg
    exact hg
  | true =>
    rw [if_pos rfl] at hsg
    obtain ⟨d, _, rfl⟩ := List.mem_map.mp hsg
    exact List.Nodup.filter _ hg

theorem nodup_tidsOf (history : List Entry) : (tidsOf history).Nodup :=
  nodup_dedupFirst _

theorem nodup_findDuplicates {kpd : Bool} {history : List Entry} (h : history.Nodup) :
    (findDuplicates kpd history).Nodup := by
  unfold findDuplicates
  rw [List.nodup_flatMap]
  constructor
  · intro t _
    rw [List.nodup_flatMap]
    constructor
    · intro sg hsg
      exact nodup_processGroup (nodup_subgroup h hsg)
    · unfold subgroupsOf
      cases kpd with
      | false => simp
      | true =>
        rw [if_pos rfl, List.pairwise_map]
        refine (nodup_dedupFirst _).imp ?_
        intro d d' hne e he1 he2
        have h1 : dayOf e.watched_at = d := by
          have := List.mem_filter.mp (mem_of_mem_processGroup he1)
          simpa using this.2
        have h2 : dayOf e.watched_at = d' := by
          have := List.mem_filter.mp (mem_of_mem_processGroup he2)
          simpa using this.2
        exact hne (h1 ▸ h2)
  · refine (nodup_tidsOf history).imp ?_
    intro t t' hne e he1 he2
    obtain ⟨sg, hsg, hpg⟩ := List.mem_flatMap.mp he1
    obtain ⟨sg', hsg', hpg'⟩ := List.mem_flatMap.mp he2
    obtain ⟨_, _, hext⟩ := subgroup_eq_subgroupFor hsg (mem_of_mem_processGroup hpg)
    obtain ⟨_, _, hext'⟩ := subgroup_eq_subgroupFor hsg' (mem_of_mem_processGroup hpg')
    rw [hext] at hext'
    exact hne (Option.some.inj hext')

theorem mem_findDuplicates_iff {kpd : Bool} {history : List Entry} {e : Entry} :
    e ∈ findDuplicates kpd history ↔
      e ∈ history ∧ e ∈ processGroup (subgroupFor kpd history e) := by
  constructor
  · intro h
    obtain ⟨t, _, hsub⟩ := List.mem_flatMap.mp h
    obtain ⟨sg, hsg, hpg⟩ := List.mem_flatMap.mp hsub
    have hesg := mem_of_mem_processGroup hpg
    obtain ⟨hEq, hh, _⟩ := subgroup_eq_subgroupFor hsg hesg
    exact ⟨hh, hEq ▸ hpg⟩
  · rintro ⟨hh, hpg⟩
    have hesub := mem_of_mem_processGroup hpg
    cases hext : extractTid e with
    | none =>
      rw [subgroupFor_of_none hext] at hesub
      simp at hesub
    | some t =>
      obtain ⟨ht, hsg, _⟩ := subgroupFor_mem hh hext
      exact List.mem_flatMap.mpr ⟨t, ht, List.mem_flatMap.mpr ⟨_, hsg, hpg⟩⟩

/-! ### Claims -/

/-- C1: for every duplicate group of size > 1 (with the service-guaranteed
distinct entry ids), the group is sorted ascending by `(watched_at, id)`
— a permutation of the group, `Sorted` for the lexicographic key order —
and a keeper is chosen: an entry of the group that, when some member has
progress ≥ 100, itself has progress ≥ 100 and key-precedes every such
member (the first qualifying entry in sorted order), and otherwise is
key-preceded by every member (the last entry in sorted order); the
entries marked for removal are exactly the group members other than the
keeper. -/
theorem C1_keeper_selection (g : List Entry) (hlen : 1 < g.length)
    (hids : (g.map Entry.id).Nodup) :
    ∃ k : Entry,
      chooseKeeper (sortGroup g) = some k ∧ k ∈ g ∧
      (sortGroup g).Sorted keyLe ∧ (sortGroup g).Perm g ∧
      ((∃ e ∈ g, 100 ≤ progD e) →
        100 ≤ progD k ∧ ∀ e ∈ g, 100 ≤ progD e → keyLe k e) ∧
      ((∀ e ∈ g, progD e < 100) → ∀ e ∈ g, keyLe e k) ∧
      (∀ e, e ∈ processGroup g ↔ e ∈ g ∧ e ≠ k) := by
  have hlen' : (sortGroup g).length = g.length := (sortGroup_perm g).length_eq
  have hne : sortGroup g ≠ [] := by
    intro hnil
    rw [hnil] at hlen'
    simp at hlen'
    omega
  obtain ⟨k, hk⟩ := chooseKeeper_of_ne_nil hne
  have hkg : k ∈ g := (mem_sortGroup g k).mp (chooseKeeper_mem hk)
  refine ⟨k, hk, hkg, sortGroup_sorted g, sortGroup_perm g, ?_, ?_, ?_⟩
  · rintro ⟨e0, he0, hp0⟩
    cases hf : (sortGroup g).find? (fun e => 100 ≤ progD e) with
    | none =>
      exfalso
      have := List.find?_eq_none.mp hf e0 ((mem_sortGroup g e0).mpr he0)
      simp [hp0] at this
    | some k' =>
      have hk' : chooseKeeper (sortGroup g) = some k' := by
        unfold chooseKeeper
        rw [hf]
      rw [hk] at hk'
      cases hk'
      constructor
      · have := List.find?_some hf
        simpa using this
      · intro e he hp
        exact find?_first_keyLe (sortGroup_sorted g) hf e ((mem_sortGroup g e).mpr he) hp
  · intro hall e he
    cases hf : (sortGroup g).find? (fun e => 100 ≤ progD e) with
    | some k' =>
      exfalso
      have hmem := (mem_sortGroup g k').mp (List.mem_of_find?_eq_some hf)
      have hp : 100 ≤ progD k' := by simpa using List.find?_some hf
      exact absurd hp (not_le.mpr (hall k' hmem))
    | none =>
      have hk2 : (sortGroup g).getLast? = some k := by
        have hck : chooseKeeper (sortGroup g) = (sortGroup g).getLast? := by
          unfold chooseKeeper
          rw [hf]
        rw [← hck, hk]
      exact getLast?_max_keyLe (sortGroup_sorted g) hk2 e ((mem_sortGroup g e).mpr he)
  · intro e
    rw [processGroup_eq_filter hlen hk]
    constructor
    · intro hmem
      have hsp := List.mem_filter.mp hmem
      refine ⟨(mem_sortGroup g e).mp hsp.1, fun heq => ?_⟩
      subst heq
      simp at hsp
    · rintro ⟨heg, hne2⟩
      refine List.mem_filter.mpr ⟨(mem_sortGroup g e).mpr heg, ?_⟩
      have hneid : e.id ≠ k.id := fun hid => hne2 (List.inj_on_of_nodup_map hids heg hkg hid)
      simpa using hneid

/-- Witness for C1 on the §8 scenario history (ids 1 and 2, trakt id 42):
the theorem applies, and there the keeper is the progress-100 entry
`egE2` while `egE1` alone is marked for removal. -/
theorem C1_witness :
    (∃ k : Entry,
      chooseKeeper (sortGroup egHistory) = some k ∧ k ∈ egHistory ∧
      (sortGroup egHistory).Sorted keyLe ∧ (sortGroup egHistory).Perm egHistory ∧
      ((∃ e ∈ egHistory, 100 ≤ progD e) →
        100 ≤ progD k ∧ ∀ e ∈ egHistory, 100 ≤ progD e → keyLe k e) ∧
      ((∀ e ∈ egHistory, progD e < 100) → ∀ e ∈ egHistory, keyLe e k) ∧
      (∀ e, e ∈ processGroup egHistory ↔ e ∈ egHistory ∧ e ≠ k)) ∧
    chooseKeeper (sortGroup egHistory) = some egE2 ∧
    processGroup egHistory = [egE1] :=
  ⟨C1_keeper_selection egHistory (by decide) (by decide), by decide, by decide⟩

/-- C2: with the service-guaranteed distinct entry ids, the
duplicate-finding pass classifies entries consistently: an entry whose
(sub)group has size 1 is never in the removal list, the keeper chosen for
any group of size > 1 is never in the removal list, and the removal list
holds no entry twice. -/
theorem C2_classification (kpd : Bool) (history : List Entry)
    (hids : (history.map Entry.id).Nodup) :
    (∀ e ∈ history, (subgroupFor kpd history e).length = 1 →
        e ∉ findDuplicates kpd history) ∧
    (∀ e ∈ history, ∀ k, 1 < (subgroupFor kpd history e).length →
        chooseKeeper (sortGroup (subgroupFor kpd history e)) = some k →
        k ∉ findDuplicates kpd history) ∧
    (findDuplicates kpd history).Nodup := by
  have hnd : history.Nodup := List.Nodup.of_map _ hids
  refine ⟨?_, ?_, nodup_findDuplicates hnd⟩
  · intro e _ hlen1 hmem
    obtain ⟨-, hpg⟩ := mem_findDuplicates_iff.mp hmem
    rw [processGroup_short (by omega)] at hpg
    simp at hpg
  · intro e he k hlen hck hmem
    cases hext : extractTid e with
    | none =>
      rw [subgroupFor_of_none hext] at hlen
      simp at hlen
    | some t =>
      obtain ⟨-, hsg, -⟩ :
          t ∈ tidsOf history ∧
            subgroupFor kpd history e ∈ subgroupsOf kpd (groupOf history t) ∧
            e ∈ subgroupFor kpd history e := subgroupFor_mem he hext
      have hkin : k ∈ subgroupFor kpd history e :=
        (mem_sortGroup _ k).mp (chooseKeeper_mem hck)
      obtain ⟨hEq, -, -⟩ := subgroup_eq_subgroupFor hsg hkin
      obtain ⟨-, hpg⟩ := mem_findDuplicates_iff.mp hmem
      rw [← hEq, processGroup_eq_filter hlen hck] at hpg
      have := (List.mem_filter.mp hpg).2
      simp at this

/-- Witness for C2 on the §8 scenario history: the removal list is
duplicate-free, the keeper `egE2` is not in it, and it is exactly
`[egE1]`. -/
theorem C2_witness :
    (findDuplicates false egHistory).Nodup ∧
    egE2 ∉ findDuplicates false egHistory ∧
    findDuplicates false egHistory = [egE1] :=
  ⟨(C2_classification false egHistory (by decide)).2.2,
   (C2_classification false egHistory (by decide)).2.1 egE1 (by decide) egE2
     (by decide) (by decide),
   by decide⟩

/-- C3: with KEEP_PER_DAY enabled, an identifier group is partitioned by
calendar day: all members of one subgroup share the trakt id and the
truncated day of `watched_at` (so two entries on different days are never
in the same subgroup), and every member of the identifier group lies in
some subgroup. -/
theorem C3_per_day_partition (history : List Entry) (t : Nat) :
    (∀ sg ∈ subgroupsOf true (groupOf history t), ∀ e1 ∈ sg, ∀ e2 ∈ sg,
        extractTid e1 = some t ∧ extractTid e2 = some t ∧
        dayOf e1.watched_at = dayOf e2.watched_at) ∧
    (∀ e ∈ groupOf history t, ∃ sg ∈ subgroupsOf true (groupOf history t), e ∈ sg) := by
  constructor
  · intro sg hsg e1 h1 e2 h2
    unfold subgroupsOf at hsg
    rw [if_pos rfl] at hsg
    obtain ⟨d, -, rfl⟩ := List.mem_map.mp hsg
    have p1 := List.mem_filter.mp h1
    have p2 := List.mem_filter.mp h2
    refine ⟨(mem_groupOf.mp p1.1).2, (mem_groupOf.mp p2.1).2, ?_⟩
    have d1 : dayOf e1.watched_at = d := by simpa using p1.2
    have d2 : dayOf e2.watched_at = d := by simpa using p2.2
    rw [d1, d2]
  · intro e he
    obtain ⟨hh, hext⟩ := mem_groupOf.mp he
    obtain ⟨-, hsg, hme⟩ :
        t ∈ tidsOf history ∧
          subgroupFor true history e ∈ subgroupsOf true (groupOf history t) ∧
          e ∈ subgroupFor true history e := subgroupFor_mem hh hext
    exact ⟨subgroupFor true history e, hsg, hme⟩

/-- Witness for C3 on the §8 scenario: both entries share trakt id 42 but
fall on different days, so no subgroup contains both, each lies in some
subgroup, and the per-day run removes nothing. -/
theorem C3_witness :
    (∃ sg ∈ subgroupsOf true (groupOf egHistory 42), egE1 ∈ sg) ∧
    (∀ sg ∈ subgroupsOf true (groupOf egHistory 42), ¬(egE1 ∈ sg ∧ egE2 ∈ sg)) ∧
    findDuplicates true egHistory = [] :=
  ⟨(C3_per_day_partition egHistory 42).2 egE1 (by decide),
   fun sg hsg hboth => by
     have hdays :=
       ((C3_per_day_partition egHistory 42).1 sg hsg egE1 hboth.1 egE2 hboth.2).2.2
     exact absurd hdays (by decide),
   by decide⟩

/-- C4: an entry whose `movie`/`episode` → `ids` → `trakt` key path is
absent is skipped entirely: it belongs to no identifier group, is never
the chosen keeper of any subgroup, and is never marked for removal. -/
theorem C4_skip (kpd : Bool) (history : List Entry) (e : Entry)
    (he : extractTid e = none) :
    (∀ t, e ∉ groupOf history t) ∧
    (∀ t, ∀ sg ∈ subgroupsOf kpd (groupOf history t),
        chooseKeeper (sortGroup sg) ≠ some e) ∧
    e ∉ findDuplicates kpd history := by
  refine ⟨?_, ?_, ?_⟩
  · intro t hmem
    obtain ⟨-, h2⟩ := mem_groupOf.mp hmem
    rw [he] at h2
    exact Option.noConfusion h2
  · intro t sg hsg hck
    have hk : e ∈ sg := (mem_sortGroup sg e).mp (chooseKeeper_mem hck)
    obtain ⟨-, -, hext⟩ := subgroup_eq_subgroupFor hsg hk
    rw [he] at hext
    exact Option.noConfusion hext
  · intro hmem
    obtain ⟨-, hpg⟩ := mem_findDuplicates_iff.mp hmem
    rw [subgroupFor_of_none he] at hpg
    rw [processGroup_short (by simp)] at hpg
    simp at hpg

/-- Witness for C4: in the history extended with `egBad` (no
`movie`/`episode` sub-dict, progress 100), `egBad` is in no group and not
removed, and the removal list is exactly `[egE1]` as without it. -/
theorem C4_witness :
    egBad ∉ findDuplicates false egHistoryB ∧
    (∀ t, egBad ∉ groupOf egHistoryB t) ∧
    findDuplicates false egHistoryB = [egE1] :=
  ⟨(C4_skip false egHistoryB egBad (by decide)).2.2,
   (C4_skip false egHistoryB egBad (by decide)).1,
   by decide⟩

/-- C5: for an authenticated request (a token is cached), a non-401 first
response is returned directly after one send; a 401 first response leads
(when the refresh chain yields a token) to exactly one retry, whose raw
response is returned whatever its status; and no execution sends the
request more than twice. -/
theorem C5_single_retry (net : Nat → Response) (t : StoredToken)
    (authRes refreshRes : Option StoredToken) (t2 : StoredToken) :
    ((net 0).status_code = 401 → refreshRes = some t2 →
        request net (some t) authRes refreshRes = .ok (net 1) 2) ∧
    ((net 0).status_code ≠ 401 →
        request net (some t) authRes refreshRes = .ok (net 0) 1) ∧
    (∀ r n, request net (some t) authRes refreshRes = .ok r n → n ≤ 2) := by
  refine ⟨?_, ?_, ?_⟩
  · intro h401 href
    simp [request, h401, href]
  · intro hne
    simp [request, hne]
  · intro r n h
    unfold request at h
    by_cases h401 : (net 0).status_code = 401
    · cases hre : refreshRes with
      | none =>
        rw [hre] at h
        simp [h401] at h
      | some u =>
        rw [hre] at h
        simp [h401] at h
        omega
    · simp [h401] at h
      omega

/-- Witness for C5: a 401 first response followed by a 200 is recovered
by exactly one refresh-and-retry, and the 200 response is returned. -/
theorem C5_witness :
    request (fun n => if n = 0 then ⟨401⟩ else ⟨200⟩) (some egTok) none (some egTok) =
      .ok ⟨200⟩ 2 :=
  (C5_single_retry (fun n => if n = 0 then ⟨401⟩ else ⟨200⟩) egTok none
    (some egTok) egTok).1 (by decide) rfl

/-- C6: a persisted token whose `expires_at` is in the past is never
returned directly: `load_token` takes the refresh path and returns the
refresh result instead of the expired record. -/
theorem C6_expired_refresh (now : Int) (t : StoredToken) (ea : Int)
    (refreshRes : Option StoredToken)
    (hea : t.expires_at = some ea) (hpast : ea < now) :
    load_token now (.parsed t) refreshRes = (refreshRes, true) := by
  simp [load_token, hea, hpast]

/-- Witness for C6: a record expired at time 10 loaded at time 20 yields
the refresh result, with the refresh flag set. -/
theorem C6_witness :
    load_token 20 (.parsed ⟨"old", "r", 0, some 10⟩) (some egTok) = (some egTok, true) :=
  C6_expired_refresh 20 ⟨"old", "r", 0, some 10⟩ 10 (some egTok) rfl (by decide)

/-- C7: saving a token stores `expires_at = save time + expires_in`, and a
subsequent load (at any time not past that expiry) returns the saved
record itself, in particular with the same `access_token`. -/
theorem C7_round_trip (now now2 : Int) (t : StoredToken)
    (refreshRes : Option StoredToken) (hfresh : ¬ now + t.expires_in < now2) :
    (save_token now t).expires_at = some (now + t.expires_in) ∧
    (load_token now2 (.parsed (save_token now t)) refreshRes).1 =
      some (save_token now t) ∧
    ∀ u, (load_token now2 (.parsed (save_token now t)) refreshRes).1 = some u →
      u.access_token = t.access_token := by
  have h2 : (load_token now2 (.parsed (save_token now t)) refreshRes).1 =
      some (save_token now t) := by
    simp [load_token, save_token, hfresh]
  refine ⟨rfl, h2, ?_⟩
  intro u hu
  rw [h2] at hu
  cases Option.some.inj hu
  rfl

/-- Witness for C7: saving `egTok` (90-day `expires_in`) at time 0 and
loading at time 0 returns the saved record with `access_token` "acc" and
`expires_at` 7776000. -/
theorem C7_witness :
    (save_token 0 egTok).expires_at = some (0 + egTok.expires_in) ∧
    (load_token 0 (.parsed (save_token 0 egTok)) none).1 = some (save_token 0 egTok) ∧
    ∀ u, (load_token 0 (.parsed (save_token 0 egTok)) none).1 = some u →
      u.access_token = egTok.access_token :=
  C7_round_trip 0 0 egTok none (by decide)

/-- C8: one step of the device poll loop while the timeout has not
elapsed: a 200 succeeds with the payload, a 400 (pending) silently
retries after one interval, a 429 retries after two intervals (one extra
wait), any other status aborts reporting it; once the timeout is reached
the loop returns timed-out, and under perpetually pending responses the
loop always terminates timed-out. -/
theorem C8_poll_loop (responses : Nat → TokenResponse) (interval : Nat)
    (hpos : 0 < interval) (timeout elapsed i : Nat) :
    (elapsed < timeout → (responses i).status_code = 200 →
        pollLoop responses interval hpos timeout elapsed i =
          .success (responses i).payload (i + 1)) ∧
    (elapsed < timeout → (responses i).status_code = 400 →
        pollLoop responses interval hpos timeout elapsed i =
          pollLoop responses interval hpos timeout (elapsed + interval) (i + 1)) ∧
    (elapsed < timeout → (responses i).status_code = 429 →
        pollLoop responses interval hpos timeout elapsed i =
          pollLoop responses interval hpos timeout (elapsed + interval + interval) (i + 1)) ∧
    (elapsed < timeout → (responses i).status_code ≠ 200 →
        (responses i).status_code ≠ 429 → (responses i).status_code ≠ 400 →
        pollLoop responses interval hpos timeout elapsed i =
          .authFailed (responses i).status_code (i + 1)) ∧
    (¬ elapsed < timeout →
        pollLoop responses interval hpos timeout elapsed i = .timedOut i) ∧
    ((∀ j, (responses j).status_code = 400) →
        ∃ n, pollLoop responses interval hpos timeout elapsed i = .timedOut n) := by
  refine ⟨?_, ?_, ?_, ?_, ?_, ?_⟩
  · intro h1 h2
    rw [pollLoop]
    simp [h1, h2]
  · intro h1 h2
    rw [pollLoop]
    simp [h1, h2]
  · intro h1 h2
    rw [pollLoop]
    simp [h1, h2]
  · intro h1 h2 h3 h4
    rw [pollLoop]
    simp [h1, h2, h3, h4]
  · intro h1
    rw [pollLoop]
    simp [h1]
  · intro hall
    have H : ∀ m el j, timeout - el ≤ m →
        ∃ n, pollLoop responses interval hpos timeout el j = .timedOut n := by
      intro m
      induction m with
      | zero =>
        intro el j hle
        have hstop : ¬ el < timeout := by omega
        exact ⟨j, by rw [pollLoop]; simp [hstop]⟩
      | succ m ih =>
        intro el j hle
        by_cases hlt : el < timeout
        · have hstep : pollLoop responses interval hpos timeout el j =
              pollLoop responses interval hpos timeout (el + interval) (j + 1) := by
            rw [pollLoop]
            simp [hlt, hall j]
          rw [hstep]
          exact ih (el + interval) (j + 1) (by omega)
        · exact ⟨j, by rw [pollLoop]; simp [hlt]⟩
    exact H (timeout - elapsed) elapsed i (le_refl _)

/-- Witness for C8: with a pending response then a success, interval 5
and timeout 30, the loop retries once after one interval and then
succeeds on the second poll. -/
theorem C8_witness :
    pollLoop egResponses 5 (Nat.succ_pos 4) 30 0 0 =
      pollLoop egResponses 5 (Nat.succ_pos 4) 30 5 1 ∧
    pollLoop egResponses 5 (Nat.succ_pos 4) 30 5 1 = .success egTok 2 :=
  ⟨(C8_poll_loop egResponses 5 (Nat.succ_pos 4) 30 0 0).2.1 (by decide) (by decide),
   (C8_poll_loop egResponses 5 (Nat.succ_pos 4) 30 5 1).1 (by decide) (by decide)⟩

/-- C9 counterexample: the guard in `main` inspects only the client id.
With a genuine client id but the client secret and username still at
their placeholder values (e.g. because the env vars are unset), the
program does not abort — contradicting the claim that a missing or
placeholder secret or username aborts before any network call. -/
theorem C9_counterexample :
    resolveCred none "your_client_secret" = "your_client_secret" ∧
    resolveCred none "your_username" = "your_username" ∧
    mainGuard "real-id" "your_client_secret" "your_username" = .proceeds := by
  refine ⟨rfl, rfl, ?_⟩
  rfl

/-- C9 (amended): only the client identifier is validated: if the
CLIENT_ID variable is unset, empty, or resolves to the placeholder, the
program aborts fatally before any network call; the client secret and
username play no part in the guard. -/
theorem C9_guard (envCid : Option String) (cs un : String) :
    ((envCid = none ∨ envCid = some "" ∨ envCid = some "your_client_id") →
        mainGuard (resolveCred envCid "your_client_id") cs un = .abortedConfig) ∧
    (∀ cs' un', mainGuard (resolveCred envCid "your_client_id") cs un =
        mainGuard (resolveCred envCid "your_client_id") cs' un') := by
  constructor
  · rintro (rfl | rfl | rfl) <;> rfl
  · intro cs' un'
    rfl

/-- Witness for C9: an unset CLIENT_ID aborts the run. -/
theorem C9_witness :
    mainGuard (resolveCred none "your_client_id") "s" "u" = .abortedConfig :=
  (C9_guard none "s" "u").1 (Or.inl rfl)

/-- C10: a parsed token file with no `expires_at` key is returned as-is,
with no refresh attempted, whatever the current time. -/
theorem C10_no_expiry_key (now : Int) (t : StoredToken)
    (refreshRes : Option StoredToken) (h : t.expires_at = none) :
    load_token now (.parsed t) refreshRes = (some t, false) := by
  simp [load_token, h]

/-- Witness for C10: `egTok` carries no `expires_at`; loading it at a
late time returns it unchanged and performs no refresh. -/
theorem C10_witness :
    load_token 999999999 (.parsed egTok) none = (some egTok, false) :=
  C10_no_expiry_key 999999999 egTok none rfl
